import Mathlib

/-!
Verification of the PDF outline extractor (`pdf_outline_extractor.py`).

The development shallowly embeds the core pipeline of the extractor:
heading classification (`is_heading_candidate`), font statistics
(average and most common font size), title resolution
(`extract_title_from_document`), level assignment
(`determine_heading_level`) and outline resolution inside
`extract_outline`.

Modelling conventions:
* Text is a `List Char`.  Python string operations (`strip`, `lower`,
  `endswith`, `len`, `in`) are modelled on the ASCII fragment of their
  Unicode semantics, which covers the character classes the program's
  regexes and keyword set actually use.
* Font sizes are modelled as rationals (`ℚ`); the source works with
  Python floats, and every comparison appearing in the claims is exact
  in both representations.
* Python's `max(set(font_sizes), key=font_sizes.count)` iterates over a
  hash-ordered set.  The iteration order of that set is passed in
  explicitly as an `order` parameter constrained by `IsSetOrder`
  (a duplicate-free enumeration of the values occurring in the input);
  CPython's concrete iteration order for a given input is one such
  enumeration.
* The regexes are compiled to explicit matchers.  `re.match` anchors at
  the start only; patterns ending in `$` must match the whole string.
  The matchers are applied by the source exclusively to
  whitespace-stripped text, and the translation of `\s*(.+)` tails
  (skip whitespace, require a nonempty remainder) is exact on such
  inputs.
-/

namespace PDFOutline

/-- ASCII whitespace as recognised by Python's `str.strip` and `\s`:
space, tab, newline, carriage return, vertical tab, form feed. -/
def isPyWhitespace (c : Char) : Bool :=
  c == ' ' || c == '\t' || c == '\n' || c == '\r' ||
  c == Char.ofNat 11 || c == Char.ofNat 12

/-- ASCII digit, the `\d` class restricted to ASCII. -/
def isDigit09 (c : Char) : Bool :=
  decide ('0' ≤ c) && decide (c ≤ '9')

/-- ASCII uppercase letter, the `[A-Z]` class. -/
def isUpperAZ (c : Char) : Bool :=
  decide ('A' ≤ c) && decide (c ≤ 'Z')

/-- ASCII lowercase letter, the `[a-z]` class. -/
def isLowerAZ (c : Char) : Bool :=
  decide ('a' ≤ c) && decide (c ≤ 'z')

/-- ASCII letter: `[A-Z]` or `[a-z]` (the case-insensitive letter class). -/
def isLetterAZ (c : Char) : Bool :=
  isUpperAZ c || isLowerAZ c

/-- ASCII lowering of a character, Python's `str.lower` on ASCII. -/
def lowerAZ (c : Char) : Char :=
  if isUpperAZ c then Char.ofNat (c.toNat + 32) else c

/-- Python's `str.strip()`: remove leading and trailing whitespace. -/
def pyStrip (l : List Char) : List Char :=
  ((l.dropWhile isPyWhitespace).reverse.dropWhile isPyWhitespace).reverse

/-- Python's substring test `needle in hay` via a prefix test. -/
def isPre (needle hay : List Char) : Bool :=
  match needle, hay with
  | [], _ => true
  | _ :: _, [] => false
  | a :: n, b :: h => a == b && isPre n h

/-- Python's substring containment `needle in hay`. -/
def containsSub (needle : List Char) : List Char → Bool
  | [] => isPre needle []
  | b :: t => isPre needle (b :: t) || containsSub needle t

/-- Character class of the reject regex `^[\d\s\.\-\(\)]+$`. -/
def isJunkChar (c : Char) : Bool :=
  isDigit09 c || isPyWhitespace c || c == '.' || c == '-' || c == '(' || c == ')'

/-- Match of the reject regex `^[\d\s\.\-\(\)]+$`: a nonempty string all
of whose characters lie in the class. -/
def onlyJunkChars (tc : List Char) : Bool :=
  !tc.isEmpty && tc.all isJunkChar

/-- The tuple argument of `text_clean.endswith(('.', '!', '?', ',', ';', ':'))`. -/
def nonHeadingEnd : List Char := ['.', '!', '?', ',', ';', ':']

/-- Python's `endswith` with that tuple of single characters: the last
character is one of them. -/
def endsPunct (tc : List Char) : Bool :=
  match tc.getLast? with
  | some c => nonHeadingEnd.contains c
  | none => false

/-- Case-insensitive literal prefix: drops `p` from the front of `l`
comparing letters through `lowerAZ` (the effect of `re.IGNORECASE` on a
literal alternation). -/
def dropCI (p : List Char) (l : List Char) : Option (List Char) :=
  match p, l with
  | [], rest => some rest
  | _ :: _, [] => none
  | a :: ps, b :: ls => if lowerAZ a == lowerAZ b then dropCI ps ls else none

/-- Matcher for `\s+` followed by greedy whitespace skipping: requires at
least one whitespace character and drops the whole run. -/
def dropWs1 (l : List Char) : Option (List Char) :=
  match l with
  | c :: rest => if isPyWhitespace c then some (rest.dropWhile isPyWhitespace) else none
  | [] => none

/-- Matcher for `\d+`: requires at least one digit and drops the run. -/
def dropDigits1 (l : List Char) : Option (List Char) :=
  match l with
  | c :: rest => if isDigit09 c then some (rest.dropWhile isDigit09) else none
  | [] => none

/-- Greedy optional dot, the `\.?` piece. -/
def dropOptDot (l : List Char) : List Char :=
  match l with
  | c :: rest => if c == '.' then rest else c :: rest
  | [] => []

/-- Matcher for `^(Chapter|Section|Part)\s+\d+[\.:]\s*(.+)` under
`re.IGNORECASE` (`re.match`, so only the start is anchored). -/
def patChapter (l : List Char) : Bool :=
  [String.data "Chapter", String.data "Section", String.data "Part"].any fun w =>
    match dropCI w l with
    | none => false
    | some r1 =>
      match dropWs1 r1 with
      | none => false
      | some r2 =>
        match dropDigits1 r2 with
        | none => false
        | some r3 =>
          match r3 with
          | c :: r4 => (c == '.' || c == ':') && !(r4.dropWhile isPyWhitespace).isEmpty
          | [] => false

/-- Matcher for `^(\d+\.?\d*\.?\d*)\s+(.+)`: a numeric outline prefix
(digits, up to two optional dots with further digits), then whitespace,
then a nonempty remainder.  The numeric part is matched greedily, which
agrees with the backtracking regex because every earlier stopping point
sits on a digit or a dot, never on the whitespace `\s+` requires. -/
def patNumbered (l : List Char) : Bool :=
  match l with
  | c :: rest =>
    if isDigit09 c then
      let r1 := rest.dropWhile isDigit09
      let r2 := (dropOptDot r1).dropWhile isDigit09
      let r3 := (dropOptDot r2).dropWhile isDigit09
      match r3 with
      | c2 :: r4 => isPyWhitespace c2 && !(r4.dropWhile isPyWhitespace).isEmpty
      | [] => false
    else false
  | [] => false

/-- Matcher for `^([A-Z][A-Z\s]+)$` under `re.IGNORECASE`: a letter
followed by at least one more letter or whitespace, spanning the whole
string. -/
def patAllCaps (l : List Char) : Bool :=
  match l with
  | c :: rest => isLetterAZ c && !rest.isEmpty && rest.all (fun d => isLetterAZ d || isPyWhitespace d)
  | [] => false

/-- Splitting on whitespace runs (maximal non-whitespace words). -/
def wordsAux (acc : List Char) : List Char → List (List Char)
  | [] => if acc.isEmpty then [] else [acc.reverse]
  | c :: rest =>
    if isPyWhitespace c then
      if acc.isEmpty then wordsAux [] rest else acc.reverse :: wordsAux [] rest
    else wordsAux (c :: acc) rest

/-- Matcher for `^([A-Z][a-z]+(?:\s+[A-Z][a-z]+)*)\s*$` under
`re.IGNORECASE`, on whitespace-stripped input (the only way the source
applies it): every whitespace-separated word consists of letters only
and has length at least two, and there is at least one word. -/
def patTitleCase (l : List Char) : Bool :=
  let ws := wordsAux [] l
  !ws.isEmpty && ws.all (fun w => decide (2 ≤ w.length) && w.all isLetterAZ)

/-- The `self.heading_patterns` list, compiled to matchers in source order. -/
def heading_patterns : List (List Char → Bool) :=
  [patChapter, patNumbered, patAllCaps, patTitleCase]

/-- The `self.heading_keywords` set (iteration order is irrelevant: it is
only consumed by `any`). -/
def heading_keywords : List (List Char) :=
  [String.data "introduction", String.data "conclusion", String.data "abstract",
   String.data "summary", String.data "overview", String.data "methodology",
   String.data "results", String.data "discussion", String.data "background",
   String.data "literature", String.data "references", String.data "appendix",
   String.data "acknowledgments", String.data "contents", String.data "index"]

/-- Embedding of `PDFOutlineExtractor.is_heading_candidate`. -/
def is_heading_candidate (text : List Char) (font_size : ℚ) (font_flags : ℕ)
    (avg_fs common_fs : ℚ) : Bool :=
  let text_clean := pyStrip text
  if text_clean.length < 3 ∨ text_clean.length > 200 then false
  else if onlyJunkChars text_clean then false
  else if endsPunct text_clean then false
  else if font_size ≥ max (avg_fs * 1.1) (common_fs * 1.05) then true
  else if font_flags &&& 2 ^ 4 ≠ 0 then true
  else if heading_patterns.any (fun p => p text_clean) then true
  else if heading_keywords.any (fun kw => containsSub kw (text_clean.map lowerAZ)) then true
  else false

/-- Embedding of `avg_font_size = sum(font_sizes)/len(font_sizes) if font_sizes else 12`. -/
def avg_font_size (sizes : List ℚ) : ℚ :=
  if sizes.isEmpty then 12 else sizes.sum / sizes.length

/-- Python's `max(iterable, key=xs.count)`: fold that keeps the first
element whose count is strictly larger than the current best's. -/
def maxByCountAux (xs : List ℚ) : ℚ → List ℚ → ℚ
  | best, [] => best
  | best, v :: rest =>
    if xs.count v > xs.count best then maxByCountAux xs v rest
    else maxByCountAux xs best rest

/-- Enumeration orders that Python's `set(sizes)` can present: a
duplicate-free list with exactly the members of `sizes`. -/
def IsSetOrder (sizes order : List ℚ) : Prop :=
  order.Nodup ∧ ∀ v : ℚ, v ∈ order ↔ v ∈ sizes

/-- Embedding of `common_font_size = max(set(font_sizes), key=font_sizes.count)
if font_sizes else 12`, with the set's iteration order passed explicitly. -/
def common_font_size (sizes order : List ℚ) : ℚ :=
  if sizes.isEmpty then 12
  else
    match order with
    | [] => 12
    | v :: rest => maxByCountAux sizes v rest

/-- First-occurrence deduplication (insertion order preserved). -/
def dkfAux (seen : List ℚ) : List ℚ → List ℚ
  | [] => []
  | v :: rest => if v ∈ seen then dkfAux seen rest else v :: dkfAux (v :: seen) rest

/-- Modelled from the spec: the statistical mode of the sizes with ties
broken by the first-encountered value in input order (empty input gives
12.0).  This is the comparison point for the common-size claim; it is
not code of the repository. -/
def firstSeenMode (sizes : List ℚ) : ℚ :=
  match dkfAux [] sizes with
  | [] => 12
  | v :: rest => maxByCountAux sizes v rest

/-- One styled span as surfaced by the document source. -/
structure Span where
  text : List Char
  size : ℚ
  flags : ℕ
deriving DecidableEq

/-- A document: optional metadata title plus pages, each page a list of
visual lines, each line a list of spans (blocks without text lines
contribute nothing and are dropped by the embedding). -/
structure Document where
  metadataTitle : Option (List Char)
  pages : List (List (List Span))

/-- Literal fallback title. -/
def untitledText : List Char := String.data "Untitled Document"

/-- The first-page scan of `extract_title_from_document`: fold over the
spans keeping the strictly largest size seen so far together with the
stripped text of the span that attained it. -/
def titleScan (ss : List Span) : List Char × ℚ :=
  ss.foldl (fun acc sp => if sp.size > acc.2 then (pyStrip sp.text, sp.size) else acc) ([], 0)

/-- The `len(doc) > 0` branch of `extract_title_from_document`. -/
def firstPageTitle (doc : Document) : List Char :=
  match doc.pages with
  | [] => untitledText
  | p :: _ =>
    let r := titleScan p.flatten
    if r.1 ≠ [] ∧ r.1.length > 3 then r.1 else untitledText

/-- Embedding of `extract_title_from_document`.  Python's truthiness test
`if metadata.get('title')` passes exactly when the title is present and a
nonempty string, whitespace-only titles included. -/
def extract_title_from_document (doc : Document) : List Char :=
  match doc.metadataTitle with
  | some t => if t ≠ [] then pyStrip t else firstPageTitle doc
  | none => firstPageTitle doc

/-- The `Heading` dataclass. -/
structure Heading where
  level : String
  text : List Char
  page : ℕ
  font_size : ℚ
  font_flags : ℕ
deriving DecidableEq

/-- An emitted outline entry `{level, text, page}`. -/
structure Entry where
  level : String
  text : List Char
  page : ℕ
deriving DecidableEq

/-- Greater-or-equal on sizes, the comparator `sorted(set(...), reverse=True)`
sorts by (descending order). -/
abbrev sizeGE (a b : ℚ) : Prop := a ≥ b

/-- Dictionary lookup `size_to_level.get(font_size, "H3")` over the
association list built from the enumerated top sizes. -/
def lookupLevel : List (ℚ × String) → ℚ → String
  | [], _ => "H3"
  | (s, lv) :: rest, x => if x == s then lv else lookupLevel rest x

/-- Embedding of `determine_heading_level`: distinct font sizes sorted in
descending order, the top three mapped to H1, H2, H3, everything else
defaulting to H3.  (`sorted(set(...))` is order-canonical, so no set
enumeration parameter is needed here.) -/
def determine_heading_level (font_size : ℚ) (all_sizes : List ℚ) : String :=
  let unique_sizes := List.insertionSort sizeGE all_sizes.dedup
  lookupLevel ((unique_sizes.take 3).zip ["H1", "H2", "H3"]) font_size

/-- One collected line record of `all_text_info`. -/
structure TextInfo where
  text : List Char
  font_size : ℚ
  font_flags : ℕ
  page : ℕ
deriving DecidableEq

/-- The per-line accumulation `line_text += span["text"]`. -/
def lineTextData (spans : List Span) : List Char :=
  spans.foldl (fun acc sp => acc ++ sp.text) []

/-- The per-line accumulation `line_font_size = max(line_font_size, span["size"])`. -/
def lineSize (spans : List Span) : ℚ :=
  spans.foldl (fun m sp => max m sp.size) 0

/-- The per-line accumulation `line_font_flags |= span["flags"]`. -/
def lineFlags (spans : List Span) : ℕ :=
  spans.foldl (fun f sp => f ||| sp.flags) 0

/-- Lines of one page: merged spans kept when the stripped text is
nonempty (`if line_text.strip():`). -/
def linesOfPage (pn : ℕ) (p : List (List Span)) : List TextInfo :=
  p.filterMap fun line =>
    let t := pyStrip (lineTextData line)
    if t ≠ [] then some ⟨t, lineSize line, lineFlags line, pn⟩ else none

/-- The page loop `for page_num in range(min(len(doc), 50))`, recording
`page_num + 1` as the page number. -/
def collectPages : ℕ → List (List (List Span)) → List TextInfo
  | _, [] => []
  | pn, p :: rest => linesOfPage pn p ++ collectPages (pn + 1) rest

/-- All collected text lines of a document (first 50 pages). -/
def collectLines (doc : Document) : List TextInfo :=
  collectPages 1 (doc.pages.take 50)

/-- Sort key of `sorted(headings, key=lambda h: (h.page, h.font_size))`:
lexicographic on (page, font_size). -/
abbrev headingLE (a b : Heading) : Prop :=
  a.page < b.page ∨ (a.page = b.page ∧ a.font_size ≤ b.font_size)

/-- Duplicate removal with the `seen` set: keep the first heading carrying
each exact text. -/
def dedupeKeepFirst : List Heading → List (List Char) → List Heading
  | [], _ => []
  | h :: rest, seen =>
    if h.text ∈ seen then dedupeKeepFirst rest seen
    else h :: dedupeKeepFirst rest (h.text :: seen)

/-- Projection to the persisted `{level, text, page}` shape. -/
def toEntry (h : Heading) : Entry := ⟨h.level, h.text, h.page⟩

/-- The outline resolution tail of `extract_outline`: stable sort by
(page, font_size) ascending, then left-to-right deduplication by text,
then projection.  (`List.insertionSort` inserts each element in front of
the first element it relates to, which on a total preorder reproduces the
stability of Python's `sorted`.) -/
def resolveOutline (hs : List Heading) : List Entry :=
  (dedupeKeepFirst (List.insertionSort headingLE hs) []).map toEntry

/-- Embedding of `extract_outline` from the collected-line stage on.
The `order` parameter is the iteration order of `set(font_sizes)` (see
`IsSetOrder`).  Mutating `heading.level` during the level loop cannot
change `determine_heading_level`'s input (which reads only font sizes),
so the loop is a `map` over the original candidates. -/
def extract_outline (doc : Document) (order : List ℚ) : List Char × List Entry :=
  let title := extract_title_from_document doc
  let infos := collectLines doc
  let sizes := infos.map (fun i => i.font_size)
  let avg := avg_font_size sizes
  let common := common_font_size sizes order
  let headings := (infos.filter fun i =>
    is_heading_candidate i.text i.font_size i.font_flags avg common).map
    fun i => Heading.mk "" i.text i.page i.font_size i.font_flags
  let levelled := headings.map fun h =>
    { h with level := determine_heading_level h.font_size (headings.map fun g => g.font_size) }
  (title, resolveOutline levelled)

/-! ### Character-class facts -/

theorem upperA_le_of_letter {c : Char} (h : isLetterAZ c = true) : 'A' ≤ c := by
  simp only [isLetterAZ, isUpperAZ, isLowerAZ, Bool.or_eq_true, Bool.and_eq_true,
    decide_eq_true_eq] at h
  rcases h with ⟨h1, _⟩ | ⟨h1, _⟩
  · exact h1
  · exact le_trans (by decide : ('A' : Char) ≤ 'a') h1

theorem beq_false_of_lt_A {c x : Char} (h : 'A' ≤ c) (hx : ¬ ('A' ≤ x)) : (c == x) = false := by
  by_cases hcx : c = x
  · exact absurd (hcx ▸ h) hx
  · simp [hcx]

theorem letter_not_digit {c : Char} (h : isLetterAZ c = true) : isDigit09 c = false := by
  have hA := upperA_le_of_letter h
  rw [isDigit09]
  by_cases hc : c ≤ '9'
  · exact absurd (le_trans hA hc) (by decide)
  · simp [hc]

theorem letter_not_ws {c : Char} (h : isLetterAZ c = true) : isPyWhitespace c = false := by
  have hA := upperA_le_of_letter h
  simp only [isPyWhitespace]
  rw [beq_false_of_lt_A hA (by decide), beq_false_of_lt_A hA (by decide),
    beq_false_of_lt_A hA (by decide), beq_false_of_lt_A hA (by decide),
    beq_false_of_lt_A hA (by decide), beq_false_of_lt_A hA (by decide)]
  rfl

theorem letter_not_junk {c : Char} (h : isLetterAZ c = true) : isJunkChar c = false := by
  have hA := upperA_le_of_letter h
  simp only [isJunkChar]
  rw [letter_not_digit h, letter_not_ws h, beq_false_of_lt_A hA (by decide),
    beq_false_of_lt_A hA (by decide), beq_false_of_lt_A hA (by decide),
    beq_false_of_lt_A hA (by decide)]
  rfl

theorem letter_not_punct {c : Char} (h : isLetterAZ c = true) : nonHeadingEnd.contains c = false := by
  have hA := upperA_le_of_letter h
  simp only [nonHeadingEnd, List.contains_cons, List.contains_nil]
  rw [beq_false_of_lt_A hA (by decide), beq_false_of_lt_A hA (by decide),
    beq_false_of_lt_A hA (by decide), beq_false_of_lt_A hA (by decide),
    beq_false_of_lt_A hA (by decide), beq_false_of_lt_A hA (by decide)]
  rfl

/-! ### Facts about `pyStrip` -/

theorem head?_dropWhile_not {α : Type} (p : α → Bool) (l : List α) (a : α)
    (h : (l.dropWhile p).head? = some a) : p a = false := by
  induction l with
  | nil => simp [List.dropWhile] at h
  | cons c t ih =>
    rw [List.dropWhile_cons] at h
    by_cases hc : p c = true
    · rw [if_pos hc] at h
      exact ih h
    · rw [if_neg hc] at h
      simp only [List.head?_cons, Option.some.injEq] at h
      subst h
      exact Bool.not_eq_true _ ▸ (by simpa using hc)

theorem pyStrip_eq_nil_iff (l : List Char) :
    pyStrip l = [] ↔ l.all isPyWhitespace = true := by
  unfold pyStrip
  rw [List.reverse_eq_nil_iff, List.dropWhile_eq_nil_iff]
  constructor
  · intro h
    rw [List.all_eq_true]
    intro x hx
    have hsplit := List.takeWhile_append_dropWhile isPyWhitespace l
    rw [← hsplit] at hx
    rcases List.mem_append.1 hx with hx1 | hx2
    · exact List.mem_takeWhile_imp hx1
    · exact h x (List.mem_reverse.2 hx2)
  · intro h x hx
    have hx2 : x ∈ l.dropWhile isPyWhitespace := List.mem_reverse.1 hx
    have hx3 : x ∈ l := (List.dropWhile_sublist isPyWhitespace).mem hx2
    exact List.all_eq_true.1 h x hx3


/-! ### Claim C1 -/

/-- Claim C1: the reject filters are evaluated before any accept rule.
If the trimmed text has length < 3 or > 200, or consists solely of
digits/whitespace/dot/dash/parentheses, or ends in one of the six
terminal punctuation characters, then `is_heading_candidate` returns
`false` regardless of font size, style flags and font profile. -/
theorem C1_reject_filters_first (text : List Char) (fs : ℚ) (ff : ℕ) (avg common : ℚ)
    (h : (pyStrip text).length < 3 ∨ (pyStrip text).length > 200 ∨
      onlyJunkChars (pyStrip text) = true ∨ endsPunct (pyStrip text) = true) :
    is_heading_candidate text fs ff avg common = false := by
  simp only [is_heading_candidate]
  rcases h with hl | hl | hl | hl
  · rw [if_pos (Or.inl hl)]
  · rw [if_pos (Or.inr hl)]
  · by_cases h1 : (pyStrip text).length < 3 ∨ (pyStrip text).length > 200
    · rw [if_pos h1]
    · rw [if_neg h1, if_pos hl]
  · by_cases h1 : (pyStrip text).length < 3 ∨ (pyStrip text).length > 200
    · rw [if_pos h1]
    · by_cases h2 : onlyJunkChars (pyStrip text) = true
      · rw [if_neg h1, if_pos h2]
      · rw [if_neg h1, if_neg h2, if_pos hl]

/-- Witness for C1: the spec's own scenario, the line `see fig. 3.` with
font size 20 is rejected because it ends in a period. -/
theorem C1_reject_filters_first_witness :
    endsPunct (pyStrip (String.data "see fig. 3.")) = true ∧
    is_heading_candidate (String.data "see fig. 3.") 20 0 12 12 = false :=
  ⟨by decide, C1_reject_filters_first (String.data "see fig. 3.") 20 0 12 12
    (Or.inr (Or.inr (Or.inr (by decide))))⟩

/-! ### Claim C2 -/

/-- Claim C2: for every line that passes the three reject filters, a font
size of at least `max(avg * 1.1, common * 1.05)` makes
`is_heading_candidate` return `true`. -/
theorem C2_size_rule_accepts (text : List Char) (fs : ℚ) (ff : ℕ) (avg common : ℚ)
    (h1 : ¬((pyStrip text).length < 3 ∨ (pyStrip text).length > 200))
    (h2 : onlyJunkChars (pyStrip text) = false)
    (h3 : endsPunct (pyStrip text) = false)
    (h4 : fs ≥ max (avg * 1.1) (common * 1.05)) :
    is_heading_candidate text fs ff avg common = true := by
  unfold is_heading_candidate
  rw [if_neg h1, if_neg (by simp [h2]), if_neg (by simp [h3]), if_pos h4]

/-- Witness for C2: the spec's scenario, `Background` at size 18 in a
corpus with average 12 and common size 11 is classified as a heading. -/
theorem C2_size_rule_accepts_witness :
    ((18 : ℚ) ≥ max ((12 : ℚ) * 1.1) ((11 : ℚ) * 1.05)) ∧
    is_heading_candidate (String.data "Background") 18 0 12 11 = true := by
  have hsize : ((18 : ℚ) ≥ max ((12 : ℚ) * 1.1) ((11 : ℚ) * 1.05)) := by
    rw [ge_iff_le, max_le_iff]
    constructor <;> norm_num
  exact ⟨hsize, C2_size_rule_accepts (String.data "Background") 18 0 12 11
    (by decide) (by decide) (by decide) hsize⟩


/-! ### Claim C9 -/

theorem letter_or_space_not_punct {z : Char}
    (h : (isLetterAZ z || z == ' ') = true) : nonHeadingEnd.contains z = false := by
  simp only [Bool.or_eq_true, beq_iff_eq] at h
  rcases h with hz | hz
  · exact letter_not_punct hz
  · subst hz
    decide

/-- Claim C9: a line whose trimmed text consists only of ASCII letters and
spaces, begins with a letter, and has trimmed length between 3 and 200 is
always classified as a heading candidate, independent of font size, style
flags and letter casing: the reject filters cannot fire and the
case-insensitive all-caps pattern matches. -/
theorem C9_letter_lines_accepted (text : List Char) (fs : ℚ) (ff : ℕ) (avg common : ℚ)
    (c0 : Char) (cs : List Char) (hst : pyStrip text = c0 :: cs)
    (hhead : isLetterAZ c0 = true)
    (hall : (c0 :: cs).all (fun c => isLetterAZ c || c == ' ') = true)
    (hlen3 : 3 ≤ (c0 :: cs).length) (hlen200 : (c0 :: cs).length ≤ 200) :
    is_heading_candidate text fs ff avg common = true := by
  have hcs : cs ≠ [] := by
    intro hcse
    rw [hcse] at hlen3
    simp at hlen3
  have hg1 : ¬((pyStrip text).length < 3 ∨ (pyStrip text).length > 200) := by
    rw [hst]
    omega
  have hg2 : onlyJunkChars (pyStrip text) = false := by
    rw [hst]
    simp [onlyJunkChars, letter_not_junk hhead]
  have hg3 : endsPunct (pyStrip text) = false := by
    rw [hst]
    unfold endsPunct
    rw [List.getLast?_eq_getLast _ (List.cons_ne_nil c0 cs)]
    exact letter_or_space_not_punct
      (List.all_eq_true.1 hall _ (List.getLast_mem (List.cons_ne_nil c0 cs)))
  have hcaps : patAllCaps (pyStrip text) = true := by
    rw [hst]
    have hdef : patAllCaps (c0 :: cs) =
        (isLetterAZ c0 && (!cs.isEmpty && cs.all fun d => isLetterAZ d || isPyWhitespace d)) := by
      simp [patAllCaps, Bool.and_assoc]
    rw [hdef, hhead]
    have h1 : cs.isEmpty = false := by
      cases cs with
      | nil => exact absurd rfl hcs
      | cons d ds => rfl
    rw [h1]
    have h2 : cs.all (fun d => isLetterAZ d || isPyWhitespace d) = true := by
      rw [List.all_eq_true]
      intro d hd
      have hda := List.all_eq_true.1 hall d (List.mem_cons_of_mem c0 hd)
      simp only [Bool.or_eq_true, beq_iff_eq] at hda
      rcases hda with hz | hz
      · simp [hz]
      · subst hz
        decide
    rw [h2]
    rfl
  have hany : heading_patterns.any (fun p => p (pyStrip text)) = true := by
    simp only [heading_patterns, List.any_cons, List.any_nil, hcaps, Bool.or_true, Bool.true_or,
      Bool.or_false]
  simp only [is_heading_candidate]
  rw [if_neg hg1, if_neg (by simp [hg2]), if_neg (by simp [hg3])]
  simp [hany]

/-- Witness for C9: the mixed-case, small, non-bold line `HELLO World` is
accepted despite a tiny font size and a huge body threshold. -/
theorem C9_letter_lines_accepted_witness :
    is_heading_candidate (String.data "HELLO World") 1 0 100 100 = true :=
  C9_letter_lines_accepted (String.data "HELLO World") 1 0 100 100 'H'
    (String.data "ELLO World") (by decide) (by decide) (by decide) (by decide)
    (by decide)


/-! ### Claim C3 -/

theorem maxByCountAux_nil (xs : List ℚ) (best : ℚ) : maxByCountAux xs best [] = best := rfl

theorem maxByCountAux_cons (xs : List ℚ) (best v : ℚ) (r : List ℚ) :
    maxByCountAux xs best (v :: r) =
      if xs.count v > xs.count best then maxByCountAux xs v r else maxByCountAux xs best r := rfl

theorem maxByCountAux_count_le (xs : List ℚ) :
    ∀ (rest : List ℚ) (best : ℚ), xs.count best ≤ xs.count (maxByCountAux xs best rest) := by
  intro rest
  induction rest with
  | nil => intro best; rw [maxByCountAux_nil]
  | cons v r ih =>
    intro best
    rw [maxByCountAux_cons]
    by_cases hc : xs.count v > xs.count best
    · rw [if_pos hc]
      exact le_trans (le_of_lt hc) (ih v)
    · rw [if_neg hc]
      exact ih best

theorem maxByCountAux_le_all (xs : List ℚ) :
    ∀ (rest : List ℚ) (best v : ℚ), v ∈ rest →
      xs.count v ≤ xs.count (maxByCountAux xs best rest) := by
  intro rest
  induction rest with
  | nil => intro best v hv; simp at hv
  | cons w r ih =>
    intro best v hv
    rw [maxByCountAux_cons]
    by_cases hc : xs.count w > xs.count best
    · rw [if_pos hc]
      rcases List.mem_cons.1 hv with rfl | hv2
      · exact maxByCountAux_count_le xs r v
      · exact ih w v hv2
    · rw [if_neg hc]
      rcases List.mem_cons.1 hv with rfl | hv2
      · exact le_trans (not_lt.1 hc) (maxByCountAux_count_le xs r best)
      · exact ih best v hv2

theorem maxByCountAux_mem (xs : List ℚ) :
    ∀ (rest : List ℚ) (best : ℚ),
      maxByCountAux xs best rest = best ∨ maxByCountAux xs best rest ∈ rest := by
  intro rest
  induction rest with
  | nil => intro best; left; rfl
  | cons w r ih =>
    intro best
    rw [maxByCountAux_cons]
    by_cases hc : xs.count w > xs.count best
    · rw [if_pos hc]
      rcases ih w with h | h
      · right; rw [h]; exact List.mem_cons_self w r
      · right; exact List.mem_cons_of_mem w h
    · rw [if_neg hc]
      rcases ih best with h | h
      · left; exact h
      · right; exact List.mem_cons_of_mem w h

theorem maxByCountAux_first (xs : List ℚ) :
    ∀ (rest : List ℚ) (best r : ℚ), maxByCountAux xs best rest = r →
      (best :: rest).Nodup →
      ∀ u ∈ (best :: rest).takeWhile (fun v => v != r), xs.count u < xs.count r := by
  intro rest
  induction rest with
  | nil =>
    intro best r hr _ u hu
    rw [maxByCountAux_nil] at hr
    subst hr
    simp [List.takeWhile_cons] at hu
  | cons w rr ih =>
    intro best r hr hnd u hu
    rw [maxByCountAux_cons] at hr
    by_cases hc : xs.count w > xs.count best
    · rw [if_pos hc] at hr
      have hrr : r = w ∨ r ∈ rr := by
        rcases maxByCountAux_mem xs rr w with h | h
        · left; rw [← hr, h]
        · right; rw [← hr]; exact h
      have hbr : best ≠ r := by
        intro hbre
        have : best ∈ w :: rr := by
          rcases hrr with h | h
          · rw [hbre, h]; exact List.mem_cons_self w rr
          · rw [hbre]; exact List.mem_cons_of_mem w h
        exact (List.nodup_cons.1 hnd).1 this
      have hbne : (best != r) = true := bne_iff_ne.2 hbr
      rw [List.takeWhile_cons, if_pos hbne] at hu
      rcases List.mem_cons.1 hu with rfl | hu2
      · calc xs.count u < xs.count w := hc
          _ ≤ xs.count r := by rw [← hr]; exact maxByCountAux_count_le xs rr w
      · exact ih w r hr (List.nodup_cons.1 hnd).2 u hu2
    · rw [if_neg hc] at hr
      by_cases hbr : best = r
      · have hbne : (best != r) = false := by simp [hbr]
        rw [List.takeWhile_cons, if_neg (by simp [hbne])] at hu
        simp at hu
      · have hbne : (best != r) = true := bne_iff_ne.2 hbr
        have hndbr : (best :: rr).Nodup := by
          have hsub : List.Sublist (best :: rr) (best :: w :: rr) :=
            List.Sublist.cons₂ best (List.sublist_cons_self w rr)
          exact hnd.sublist hsub
        have ihb := ih best r hr hndbr
        have hcb : xs.count best < xs.count r := by
          apply ihb best
          rw [List.takeWhile_cons, if_pos hbne]
          exact List.mem_cons_self _ _
        rw [List.takeWhile_cons, if_pos hbne] at hu
        rcases List.mem_cons.1 hu with rfl | hu2
        · exact hcb
        · rw [List.takeWhile_cons] at hu2
          by_cases hw : (w != r) = true
          · rw [if_pos hw] at hu2
            rcases List.mem_cons.1 hu2 with rfl | hu3
            · exact lt_of_le_of_lt (not_lt.1 hc) hcb
            · apply ihb u
              rw [List.takeWhile_cons, if_pos hbne]
              exact List.mem_cons_of_mem best hu3
          · rw [if_neg hw] at hu2
            simp at hu2

/-- Claim C3 counterexample: with collected sizes `[14, 12, 14, 12]` both
values occur twice, so the mode with first-encountered tie-break is 14.
CPython's `set` of the floats 14.0 and 12.0 hashes them to 14 and 12 and
stores them in slots 6 and 4 of the 8-slot table, so set iteration
yields 12.0 before 14.0 — a legitimate `IsSetOrder` enumeration — and
`max(set(sizes), key=sizes.count)` returns 12.0, not the
first-encountered mode 14.0. -/
theorem C3_counterexample :
    IsSetOrder [14, 12, 14, 12] [12, 14] ∧
    common_font_size [14, 12, 14, 12] [12, 14] = 12 ∧
    firstSeenMode [14, 12, 14, 12] = 14 ∧
    (12 : ℚ) ≠ 14 :=
  ⟨⟨by decide, fun v => by simp only [List.mem_cons, List.not_mem_nil, or_false]; tauto⟩,
    by decide, by decide, by decide⟩

/-- Claim C3 (amended): for every non-empty list of collected sizes, the
computed common font size is a statistical mode — a value occurring in
the input whose multiplicity is maximal — but ties between equally
frequent values are broken by the iteration order of the Python set of
sizes (the first value of the enumeration achieving the maximal count
wins), not by first occurrence in input order. -/
theorem C3_common_size_mode (sizes order : List ℚ) (hne : sizes ≠ [])
    (hso : IsSetOrder sizes order) :
    common_font_size sizes order ∈ sizes ∧
    (∀ v ∈ sizes, sizes.count v ≤ sizes.count (common_font_size sizes order)) ∧
    (∀ u ∈ order.takeWhile (fun v => v != common_font_size sizes order),
      sizes.count u < sizes.count (common_font_size sizes order)) := by
  obtain ⟨hnd, hmem⟩ := hso
  have hsne : sizes.isEmpty = false := by
    cases sizes with
    | nil => exact absurd rfl hne
    | cons a t => rfl
  cases order with
  | nil =>
    exfalso
    obtain ⟨s0, hs0⟩ := List.exists_mem_of_ne_nil sizes hne
    exact (List.not_mem_nil s0) ((hmem s0).2 hs0)
  | cons o os =>
    have hres : common_font_size sizes (o :: os) = maxByCountAux sizes o os := by
      unfold common_font_size
      rw [if_neg (by simp [hsne])]
    rw [hres]
    refine ⟨?_, ?_, ?_⟩
    · rcases maxByCountAux_mem sizes os o with h | h
      · rw [h]
        exact (hmem _).1 (List.mem_cons_self o os)
      · exact (hmem _).1 (List.mem_cons_of_mem o h)
    · intro v hv
      rcases List.mem_cons.1 ((hmem v).2 hv) with rfl | hv2
      · exact maxByCountAux_count_le sizes os v
      · exact maxByCountAux_le_all sizes os o v hv2
    · exact maxByCountAux_first sizes os o _ rfl hnd
/-- Witness for the amended C3 theorem at the counterexample input: the
returned value 12 is indeed a maximal-count member of the sizes. -/
theorem C3_common_size_mode_witness :
    common_font_size [14, 12, 14, 12] [12, 14] ∈ ([14, 12, 14, 12] : List ℚ) :=
  (C3_common_size_mode [14, 12, 14, 12] [12, 14] (by decide)
    ⟨by decide, fun v => by simp only [List.mem_cons, List.not_mem_nil, or_false]; tauto⟩).1


/-! ### Claim C5 -/

instance : IsTotal ℚ sizeGE := ⟨fun a b => le_total b a⟩

instance : IsTrans ℚ sizeGE := ⟨fun _ _ _ h1 h2 => le_trans h2 h1⟩

theorem lookupLevel_mem_or_default :
    ∀ (ps : List (ℚ × String)) (x : ℚ),
      lookupLevel ps x = "H3" ∨ ∃ p ∈ ps, lookupLevel ps x = p.2 := by
  intro ps
  induction ps with
  | nil => intro x; left; rfl
  | cons p rest ih =>
    intro x
    obtain ⟨s, lv⟩ := p
    by_cases hx : (x == s) = true
    · right
      exact ⟨(s, lv), List.mem_cons_self _ _, by simp [lookupLevel, hx]⟩
    · have hlk : lookupLevel ((s, lv) :: rest) x = lookupLevel rest x := by
        simp only [lookupLevel]
        rw [if_neg hx]
      rcases ih x with h | ⟨q, hq, heq⟩
      · left; rw [hlk]; exact h
      · right; exact ⟨q, List.mem_cons_of_mem _ hq, by rw [hlk]; exact heq⟩

theorem dhl_levels (fs : ℚ) (l : List ℚ) :
    determine_heading_level fs l = "H1" ∨ determine_heading_level fs l = "H2" ∨
      determine_heading_level fs l = "H3" := by
  simp only [determine_heading_level]
  rcases lookupLevel_mem_or_default
      (((List.insertionSort sizeGE l.dedup).take 3).zip ["H1", "H2", "H3"]) fs with h | ⟨p, hp, heq⟩
  · right; right; exact h
  · have hsnd : p.2 ∈ ["H1", "H2", "H3"] := (List.of_mem_zip hp).2
    rw [heq]
    simpa using hsnd

theorem dhl_max (fs : ℚ) (l : List ℚ) (hmem : fs ∈ l) (hmax : ∀ v ∈ l, v ≤ fs) :
    determine_heading_level fs l = "H1" := by
  simp only [determine_heading_level]
  set u := List.insertionSort sizeGE l.dedup with hu
  have hperm : List.Perm u l.dedup := by rw [hu]; exact List.perm_insertionSort sizeGE l.dedup
  have hmemu : ∀ a : ℚ, a ∈ u ↔ a ∈ l := fun a => (hperm.mem_iff).trans List.mem_dedup
  have hsortedu : u.Sorted sizeGE := by rw [hu]; exact List.sorted_insertionSort sizeGE l.dedup
  have hfu : fs ∈ u := (hmemu fs).2 hmem
  cases hcu : u with
  | nil => rw [hcu] at hfu; simp at hfu
  | cons a t =>
    have ha : a = fs := by
      apply le_antisymm
      · exact hmax a ((hmemu a).1 (by rw [hcu]; exact List.mem_cons_self a t))
      · rw [hcu] at hfu hsortedu
        rcases List.mem_cons.1 hfu with rfl | hft
        · exact le_refl _
        · exact List.rel_of_sorted_cons hsortedu fs hft
    rw [ha]
    simp [lookupLevel]

theorem dhl_second (fs m : ℚ) (l : List ℚ) (hfs : fs ∈ l) (hm : m ∈ l) (hlt : fs < m)
    (hmax : ∀ v ∈ l, v ≤ m) (hsec : ∀ v ∈ l, fs < v → v = m) :
    determine_heading_level fs l = "H2" := by
  simp only [determine_heading_level]
  set u := List.insertionSort sizeGE l.dedup with hu
  have hperm : List.Perm u l.dedup := by rw [hu]; exact List.perm_insertionSort sizeGE l.dedup
  have hmemu : ∀ a : ℚ, a ∈ u ↔ a ∈ l := fun a => (hperm.mem_iff).trans List.mem_dedup
  have hnodupu : u.Nodup := (hperm.nodup_iff).2 (List.nodup_dedup l)
  have hsortedu : u.Sorted sizeGE := by rw [hu]; exact List.sorted_insertionSort sizeGE l.dedup
  have hfu : fs ∈ u := (hmemu fs).2 hfs
  have hmu : m ∈ u := (hmemu m).2 hm
  cases hcu : u with
  | nil => rw [hcu] at hfu; simp at hfu
  | cons a t =>
    rw [hcu] at hfu hmu hnodupu hsortedu
    have ha : a = m := by
      apply le_antisymm
      · exact hmax a ((hmemu a).1 (by rw [hcu]; exact List.mem_cons_self a t))
      · rcases List.mem_cons.1 hmu with rfl | hmt
        · exact le_refl _
        · exact List.rel_of_sorted_cons hsortedu m hmt
    have hft : fs ∈ t := by
      rcases List.mem_cons.1 hfu with rfl | h
      · exact absurd (ha ▸ hlt) (lt_irrefl fs)
      · exact h
    cases hct : t with
    | nil => rw [hct] at hft; simp at hft
    | cons b t2 =>
      rw [hct] at hft hnodupu hsortedu
      have hbl : b ∈ l := (hmemu b).1 (by rw [hcu, hct]; exact List.mem_cons_of_mem a (List.mem_cons_self b t2))
      have hble : b ≤ fs := by
        by_contra hnb
        push_neg at hnb
        have hbm : b = m := hsec b hbl hnb
        have hab : a ≠ b := by
          intro hab
          exact (List.nodup_cons.1 hnodupu).1 (by rw [hab]; exact List.mem_cons_self b t2)
        exact hab (by rw [ha, hbm])
      have hgeb : fs ≤ b := by
        have hst : (b :: t2).Sorted sizeGE := hsortedu.of_cons
        rcases List.mem_cons.1 hft with rfl | hft2
        · exact le_refl _
        · exact List.rel_of_sorted_cons hst fs hft2
      have hb : b = fs := le_antisymm hble hgeb
      rw [ha, hb]
      have hne : (fs == m) = false := beq_eq_false_iff_ne.2 (ne_of_lt hlt)
      simp [lookupLevel, hne]

theorem dhl_third (fs m2 m1 : ℚ) (l : List ℚ) (hfs : fs ∈ l) (hm2 : m2 ∈ l) (hm1 : m1 ∈ l)
    (hlt2 : fs < m2) (hlt1 : m2 < m1)
    (hmax : ∀ v ∈ l, v ≤ m1) (hsec : ∀ v ∈ l, fs < v → v = m1 ∨ v = m2) :
    determine_heading_level fs l = "H3" := by
  simp only [determine_heading_level]
  set u := List.insertionSort sizeGE l.dedup with hu
  have hperm : List.Perm u l.dedup := by rw [hu]; exact List.perm_insertionSort sizeGE l.dedup
  have hmemu : ∀ a : ℚ, a ∈ u ↔ a ∈ l := fun a => (hperm.mem_iff).trans List.mem_dedup
  have hnodupu : u.Nodup := (hperm.nodup_iff).2 (List.nodup_dedup l)
  have hsortedu : u.Sorted sizeGE := by rw [hu]; exact List.sorted_insertionSort sizeGE l.dedup
  have hfu : fs ∈ u := (hmemu fs).2 hfs
  have hm2u : m2 ∈ u := (hmemu m2).2 hm2
  have hm1u : m1 ∈ u := (hmemu m1).2 hm1
  cases hcu : u with
  | nil => rw [hcu] at hfu; simp at hfu
  | cons a t =>
    rw [hcu] at hfu hm2u hm1u hnodupu hsortedu
    have ha : a = m1 := by
      apply le_antisymm
      · exact hmax a ((hmemu a).1 (by rw [hcu]; exact List.mem_cons_self a t))
      · rcases List.mem_cons.1 hm1u with rfl | hmt
        · exact le_refl _
        · exact List.rel_of_sorted_cons hsortedu m1 hmt
    have hm2t : m2 ∈ t := by
      rcases List.mem_cons.1 hm2u with h | h
      · exact absurd (h.trans ha) (ne_of_lt hlt1)
      · exact h
    have hft : fs ∈ t := by
      rcases List.mem_cons.1 hfu with h | h
      · exact absurd (h.trans ha) (ne_of_lt (lt_trans hlt2 hlt1))
      · exact h
    cases hct : t with
    | nil => rw [hct] at hft; simp at hft
    | cons b t2 =>
      rw [hct] at hft hm2t hnodupu hsortedu
      have hstb : (b :: t2).Sorted sizeGE := hsortedu.of_cons
      have hbl : b ∈ l := (hmemu b).1
        (by rw [hcu, hct]; exact List.mem_cons_of_mem a (List.mem_cons_self b t2))
      have hab : a ≠ b := by
        intro hab
        exact (List.nodup_cons.1 hnodupu).1 (by rw [hab]; exact List.mem_cons_self b t2)
      have hb : b = m2 := by
        have hbge : b ≥ m2 := by
          rcases List.mem_cons.1 hm2t with h | h
          · exact le_of_eq h
          · exact List.rel_of_sorted_cons hstb m2 h
        have hbgt : fs < b := lt_of_lt_of_le hlt2 hbge
        rcases hsec b hbl hbgt with h1 | h2
        · exact absurd (by rw [ha, h1]) hab
        · exact h2
      have hft2 : fs ∈ t2 := by
        rcases List.mem_cons.1 hft with h | h
        · exact absurd (h.trans hb) (ne_of_lt hlt2)
        · exact h
      cases hct2 : t2 with
      | nil => rw [hct2] at hft2; simp at hft2
      | cons c t3 =>
        rw [hct2] at hft2 hnodupu hsortedu
        have hstc : (c :: t3).Sorted sizeGE := hsortedu.of_cons.of_cons
        have hcl : c ∈ l := (hmemu c).1
          (by rw [hcu, hct, hct2]
              exact List.mem_cons_of_mem a (List.mem_cons_of_mem b (List.mem_cons_self c t3)))
        have hcge : c ≥ fs := by
          rcases List.mem_cons.1 hft2 with h | h
          · exact le_of_eq h
          · exact List.rel_of_sorted_cons hstc fs h
        have hcle : c ≤ fs := by
          by_contra hnc
          push_neg at hnc
          have hbc : b ≠ c := by
            intro hbc
            exact (List.nodup_cons.1 hnodupu.of_cons).1 (by rw [hbc]; exact List.mem_cons_self c t3)
          have hac : a ≠ c := by
            intro hac
            exact (List.nodup_cons.1 hnodupu).1
              (by rw [hac]; exact List.mem_cons_of_mem b (List.mem_cons_self c t3))
          rcases hsec c hcl hnc with h1 | h2
          · exact hac (by rw [ha, h1])
          · exact hbc (by rw [hb, h2])
        have hc : c = fs := le_antisymm hcle hcge
        rw [ha, hb, hc]
        have hne1 : (fs == m1) = false := beq_eq_false_iff_ne.2 (ne_of_lt (lt_trans hlt2 hlt1))
        have hne2 : (fs == m2) = false := beq_eq_false_iff_ne.2 (ne_of_lt hlt2)
        simp [lookupLevel, hne1, hne2]

theorem dhl_deep (fs x y z : ℚ) (l : List ℚ) (hx : x ∈ l) (hy : y ∈ l) (hz : z ∈ l)
    (hxy : x ≠ y) (hxz : x ≠ z) (hyz : y ≠ z)
    (hgx : fs < x) (hgy : fs < y) (hgz : fs < z) :
    determine_heading_level fs l = "H3" := by
  simp only [determine_heading_level]
  set u := List.insertionSort sizeGE l.dedup with hu
  have hperm : List.Perm u l.dedup := by rw [hu]; exact List.perm_insertionSort sizeGE l.dedup
  have hmemu : ∀ a : ℚ, a ∈ u ↔ a ∈ l := fun a => (hperm.mem_iff).trans List.mem_dedup
  have hsortedu : u.Sorted sizeGE := by rw [hu]; exact List.sorted_insertionSort sizeGE l.dedup
  have hxu : x ∈ u := (hmemu x).2 hx
  have hyu : y ∈ u := (hmemu y).2 hy
  have hzu : z ∈ u := (hmemu z).2 hz
  cases hcu : u with
  | nil => rw [hcu] at hxu; simp at hxu
  | cons a t =>
    rw [hcu] at hxu hyu hzu hsortedu
    cases hct : t with
    | nil =>
      rw [hct] at hxu hyu
      have hx2 : x = a := by simpa using hxu
      have hy2 : y = a := by simpa using hyu
      exact absurd (hx2.trans hy2.symm) hxy
    | cons b t2 =>
      rw [hct] at hxu hyu hzu hsortedu
      cases hct2 : t2 with
      | nil =>
        rw [hct2] at hxu hyu hzu
        have hx2 : x = a ∨ x = b := by simpa using hxu
        have hy2 : y = a ∨ y = b := by simpa using hyu
        have hz2 : z = a ∨ z = b := by simpa using hzu
        rcases hx2 with hx3 | hx3 <;> rcases hy2 with hy3 | hy3 <;>
          rcases hz2 with hz3 | hz3 <;>
          first
          | exact absurd (hx3.trans hy3.symm) hxy
          | exact absurd (hx3.trans hz3.symm) hxz
          | exact absurd (hy3.trans hz3.symm) hyz
      | cons c t3 =>
        rw [hct2] at hxu hyu hzu hsortedu
        have htail : ∀ w : ℚ, w ∈ b :: c :: t3 → w ≤ a :=
          fun w hw => List.rel_of_sorted_cons hsortedu w hw
        have htail2 : ∀ w : ℚ, w ∈ c :: t3 → w ≤ b :=
          fun w hw => List.rel_of_sorted_cons hsortedu.of_cons w hw
        have htail3 : ∀ w : ℚ, w ∈ t3 → w ≤ c :=
          fun w hw => List.rel_of_sorted_cons hsortedu.of_cons.of_cons w hw
        have hbound : ∀ w : ℚ, w ∈ a :: b :: c :: t3 → fs < w → fs < a := by
          intro w hw hgw
          rcases List.mem_cons.1 hw with rfl | hw2
          · exact hgw
          · exact lt_of_lt_of_le hgw (htail w hw2)
        have hga : fs < a := hbound x hxu hgx
        have hgb : fs < b := by
          by_cases hxa : x = a
          · have hyt : y ∈ b :: c :: t3 := by
              rcases List.mem_cons.1 hyu with h | h
              · exact absurd (hxa.trans h.symm) hxy
              · exact h
            rcases List.mem_cons.1 hyt with h | h
            · exact lt_of_lt_of_le hgy (le_of_eq h)
            · exact lt_of_lt_of_le hgy (htail2 y h)
          · have hxt : x ∈ b :: c :: t3 := by
              rcases List.mem_cons.1 hxu with h | h
              · exact absurd h hxa
              · exact h
            rcases List.mem_cons.1 hxt with h | h
            · exact lt_of_lt_of_le hgx (le_of_eq h)
            · exact lt_of_lt_of_le hgx (htail2 x h)
        have hgc : fs < c := by
          have key : ∃ w, fs < w ∧ w ∈ a :: b :: c :: t3 ∧ w ≠ a ∧ w ≠ b := by
            by_cases hxa : x = a
            · by_cases hyb : y = b
              · refine ⟨z, hgz, hzu, ?_, ?_⟩
                · intro h; exact hxz (hxa.trans h.symm)
                · intro h; exact hyz (hyb.trans h.symm)
              · refine ⟨y, hgy, hyu, ?_, hyb⟩
                intro h; exact hxy (hxa.trans h.symm)
            · by_cases hxb : x = b
              · by_cases hya : y = a
                · refine ⟨z, hgz, hzu, ?_, ?_⟩
                  · intro h; exact hyz (hya.trans h.symm)
                  · intro h; exact hxz (hxb.trans h.symm)
                · refine ⟨y, hgy, hyu, hya, ?_⟩
                  intro h; exact hxy (hxb.trans h.symm)
              · exact ⟨x, hgx, hxu, hxa, hxb⟩
          obtain ⟨w, hgw, hwu, hwa, hwb⟩ := key
          have hwt : w ∈ c :: t3 := by
            rcases List.mem_cons.1 hwu with h | h1
            · exact absurd h hwa
            · rcases List.mem_cons.1 h1 with h | h2
              · exact absurd h hwb
              · exact h2
          rcases List.mem_cons.1 hwt with h | h
          · exact lt_of_lt_of_le hgw (le_of_eq h)
          · exact lt_of_lt_of_le hgw (htail3 w h)
        have hnea : (fs == a) = false := beq_eq_false_iff_ne.2 (ne_of_lt hga)
        have hneb : (fs == b) = false := beq_eq_false_iff_ne.2 (ne_of_lt hgb)
        have hnec : (fs == c) = false := beq_eq_false_iff_ne.2 (ne_of_lt hgc)
        simp [lookupLevel, hnea, hneb, hnec]

/-- Claim C5: levels are assigned from the descending order of distinct
candidate font sizes.  Every assigned level is H1, H2 or H3; a candidate
whose size is the maximum gets H1, one whose size is the second-largest
distinct value gets H2, one with the third-largest distinct value gets
H3, and one with at least three distinct larger sizes above it gets the
H3 catch-all. -/
theorem C5_level_assignment :
    (∀ (fs : ℚ) (l : List ℚ), determine_heading_level fs l = "H1" ∨
      determine_heading_level fs l = "H2" ∨ determine_heading_level fs l = "H3") ∧
    (∀ (fs : ℚ) (l : List ℚ), fs ∈ l → (∀ v ∈ l, v ≤ fs) →
      determine_heading_level fs l = "H1") ∧
    (∀ (fs m : ℚ) (l : List ℚ), fs ∈ l → m ∈ l → fs < m → (∀ v ∈ l, v ≤ m) →
      (∀ v ∈ l, fs < v → v = m) → determine_heading_level fs l = "H2") ∧
    (∀ (fs m2 m1 : ℚ) (l : List ℚ), fs ∈ l → m2 ∈ l → m1 ∈ l → fs < m2 → m2 < m1 →
      (∀ v ∈ l, v ≤ m1) → (∀ v ∈ l, fs < v → v = m1 ∨ v = m2) →
      determine_heading_level fs l = "H3") ∧
    (∀ (fs x y z : ℚ) (l : List ℚ), x ∈ l → y ∈ l → z ∈ l → x ≠ y → x ≠ z → y ≠ z →
      fs < x → fs < y → fs < z → determine_heading_level fs l = "H3") :=
  ⟨dhl_levels, dhl_max, dhl_second, dhl_third, dhl_deep⟩

/-- Witness for C5 on the size corpus `[20, 16, 12, 10]`: 20 is H1, 16 is
H2, 12 is H3 (third tier) and 10 is H3 (catch-all). -/
theorem C5_level_assignment_witness :
    determine_heading_level 20 [20, 16, 12, 10] = "H1" ∧
    determine_heading_level 16 [20, 16, 12, 10] = "H2" ∧
    determine_heading_level 12 [20, 16, 12, 10] = "H3" ∧
    determine_heading_level 10 [20, 16, 12, 10] = "H3" :=
  ⟨C5_level_assignment.2.1 20 [20, 16, 12, 10] (by decide) (by decide),
   C5_level_assignment.2.2.1 16 20 [20, 16, 12, 10] (by decide) (by decide) (by decide)
     (by decide) (by decide),
   C5_level_assignment.2.2.2.1 12 16 20 [20, 16, 12, 10] (by decide) (by decide) (by decide)
     (by decide) (by decide) (by decide) (by decide),
   C5_level_assignment.2.2.2.2 10 20 16 12 [20, 16, 12, 10] (by decide) (by decide) (by decide)
     (by decide) (by decide) (by decide) (by decide) (by decide) (by decide)⟩


/-! ### Claim C6 -/

instance : IsTotal Heading headingLE := by
  constructor
  intro a b
  rcases Nat.lt_trichotomy a.page b.page with h | h | h
  · exact Or.inl (Or.inl h)
  · rcases le_total a.font_size b.font_size with h2 | h2
    · exact Or.inl (Or.inr ⟨h, h2⟩)
    · exact Or.inr (Or.inr ⟨h.symm, h2⟩)
  · exact Or.inr (Or.inl h)

instance : IsTrans Heading headingLE := by
  constructor
  intro a b c hab hbc
  rcases hab with h1 | ⟨h1, h1s⟩
  · rcases hbc with h2 | ⟨h2, _⟩
    · exact Or.inl (lt_trans h1 h2)
    · exact Or.inl (h2 ▸ h1)
  · rcases hbc with h2 | ⟨h2, h2s⟩
    · exact Or.inl (h1 ▸ h2)
    · exact Or.inr ⟨h1.trans h2, le_trans h1s h2s⟩

theorem dedupeKeepFirst_cons (h : Heading) (rest : List Heading) (seen : List (List Char)) :
    dedupeKeepFirst (h :: rest) seen =
      if h.text ∈ seen then dedupeKeepFirst rest seen
      else h :: dedupeKeepFirst rest (h.text :: seen) := rfl

theorem dedupeKeepFirst_sublist :
    ∀ (l : List Heading) (seen : List (List Char)),
      List.Sublist (dedupeKeepFirst l seen) l := by
  intro l
  induction l with
  | nil => intro seen; exact List.Sublist.refl []
  | cons h t ih =>
    intro seen
    rw [dedupeKeepFirst_cons]
    by_cases hc : h.text ∈ seen
    · rw [if_pos hc]
      exact List.Sublist.cons h (ih seen)
    · rw [if_neg hc]
      exact List.Sublist.cons₂ h (ih (h.text :: seen))

theorem dedupeKeepFirst_texts :
    ∀ (l : List Heading) (seen : List (List Char)),
      (∀ e ∈ dedupeKeepFirst l seen, e.text ∉ seen) ∧
      (dedupeKeepFirst l seen).Pairwise (fun a b => a.text ≠ b.text) := by
  intro l
  induction l with
  | nil =>
    intro seen
    exact ⟨by intro e he; simp [dedupeKeepFirst] at he, List.Pairwise.nil⟩
  | cons h t ih =>
    intro seen
    rw [dedupeKeepFirst_cons]
    by_cases hc : h.text ∈ seen
    · rw [if_pos hc]
      exact ih seen
    · rw [if_neg hc]
      obtain ⟨ih1, ih2⟩ := ih (h.text :: seen)
      constructor
      · intro e he
        rcases List.mem_cons.1 he with rfl | he2
        · exact hc
        · intro hes
          exact (ih1 e he2) (List.mem_cons_of_mem _ hes)
      · rw [List.pairwise_cons]
        refine ⟨?_, ih2⟩
        intro e he heq
        exact (ih1 e he) (by rw [← heq]; exact List.mem_cons_self _ _)

theorem resolveOutline_text_nodup (hs : List Heading) :
    (resolveOutline hs).Pairwise (fun a b => a.text ≠ b.text) := by
  unfold resolveOutline
  rw [List.pairwise_map]
  exact (dedupeKeepFirst_texts (List.insertionSort headingLE hs) []).2

theorem resolveOutline_page_sorted (hs : List Heading) :
    (resolveOutline hs).Pairwise (fun a b => a.page ≤ b.page) := by
  unfold resolveOutline
  rw [List.pairwise_map]
  have hsorted : (List.insertionSort headingLE hs).Pairwise headingLE :=
    List.sorted_insertionSort headingLE hs
  have hd : (dedupeKeepFirst (List.insertionSort headingLE hs) []).Pairwise headingLE :=
    List.Pairwise.sublist (dedupeKeepFirst_sublist _ []) hsorted
  apply List.Pairwise.imp ?_ hd
  intro a b hab
  rcases hab with h | ⟨h, _⟩
  · exact le_of_lt h
  · exact le_of_eq h

/-- Claim C6: the outline resolver sorts the levelled candidates by
(page ascending, font size ascending) and removes duplicates by exact
text in one keep-first pass.  Consequently the emitted entries have
pairwise distinct texts and non-decreasing page numbers — also for the
entries of every `extract_outline` run — and on the spec's scenario
(`Intro` on page 3 size 16 versus `Intro` on page 1 size 20) exactly the
page-1 item survives. -/
theorem C6_resolver_dedup_order :
    (∀ hs : List Heading, (resolveOutline hs).Pairwise (fun a b => a.text ≠ b.text)) ∧
    (∀ hs : List Heading, (resolveOutline hs).Pairwise (fun a b => a.page ≤ b.page)) ∧
    (∀ (doc : Document) (order : List ℚ),
      (extract_outline doc order).2.Pairwise (fun a b => a.text ≠ b.text)) ∧
    resolveOutline
        [⟨"H2", String.data "Intro", 3, 16, 0⟩, ⟨"H1", String.data "Intro", 1, 20, 0⟩] =
      [⟨"H1", String.data "Intro", 1⟩] := by
  refine ⟨resolveOutline_text_nodup, resolveOutline_page_sorted, ?_, by decide⟩
  intro doc order
  simp only [extract_outline]
  exact resolveOutline_text_nodup _


/-! ### Claim C7 -/

theorem collectPages_cons (pn : ℕ) (p : List (List Span)) (rest : List (List (List Span))) :
    collectPages pn (p :: rest) = linesOfPage pn p ++ collectPages (pn + 1) rest := rfl

theorem collectPages_page_bounds :
    ∀ (ps : List (List (List Span))) (pn : ℕ) (i : TextInfo),
      i ∈ collectPages pn ps → pn ≤ i.page ∧ i.page < pn + ps.length := by
  intro ps
  induction ps with
  | nil => intro pn i hi; simp [collectPages] at hi
  | cons p rest ih =>
    intro pn i hi
    rw [collectPages_cons] at hi
    rcases List.mem_append.1 hi with h1 | h2
    · have hpage : i.page = pn := by
        simp only [linesOfPage] at h1
        obtain ⟨line, _, heq⟩ := List.mem_filterMap.1 h1
        by_cases hc : pyStrip (lineTextData line) ≠ []
        · rw [if_pos hc] at heq
          simp only [Option.some.injEq] at heq
          rw [← heq]
        · rw [if_neg hc] at heq
          cases heq
      simp only [List.length_cons]
      omega
    · have := ih (pn + 1) i h2
      simp only [List.length_cons]
      omega

/-- Claim C7: only the first `min(N, 50)` pages contribute lines, and
every emitted outline entry has a page number between 1 and
`min(N, 50)` inclusive. -/
theorem C7_page_bound (doc : Document) (order : List ℚ) (e : Entry)
    (he : e ∈ (extract_outline doc order).2) :
    1 ≤ e.page ∧ e.page ≤ min doc.pages.length 50 := by
  simp only [extract_outline] at he
  unfold resolveOutline at he
  obtain ⟨h, hh, rfl⟩ := List.mem_map.1 he
  have h1 : h ∈ List.insertionSort headingLE _ :=
    (dedupeKeepFirst_sublist _ []).mem hh
  have h2 := (List.perm_insertionSort headingLE _).mem_iff.1 h1
  obtain ⟨h0, hh0, rfl⟩ := List.mem_map.1 h2
  obtain ⟨i, hi, rfl⟩ := List.mem_map.1 hh0
  have hif : i ∈ collectLines doc := (List.mem_filter.1 hi).1
  have hb := collectPages_page_bounds (doc.pages.take 50) 1 i hif
  rw [List.length_take] at hb
  constructor
  · exact hb.1
  · have h50 : i.page < 1 + min 50 doc.pages.length := hb.2
    simp only [toEntry]
    omega

/-- Witness for C7: a one-page document whose single line `Introduction`
becomes an outline entry on page 1, within the bound `min(1, 50) = 1`. -/
theorem C7_page_bound_witness :
    1 ≤ (⟨"H1", String.data "Introduction", 1⟩ : Entry).page ∧
    (⟨"H1", String.data "Introduction", 1⟩ : Entry).page ≤
      min (Document.mk none [[[⟨String.data "Introduction", 20, 0⟩]]]).pages.length 50 := by
  apply C7_page_bound ⟨none, [[[⟨String.data "Introduction", 20, 0⟩]]]⟩ [20]
  have hcl : collectLines ⟨none, [[[⟨String.data "Introduction", 20, 0⟩]]]⟩ =
      [⟨String.data "Introduction", 20, 0, 1⟩] := by decide
  have havg : avg_font_size [20] = 20 := by norm_num [avg_font_size]
  have hcom : common_font_size [20] [20] = 20 := by decide
  have hihc : is_heading_candidate
      ['I', 'n', 't', 'r', 'o', 'd', 'u', 'c', 't', 'i', 'o', 'n'] 20 0 20 20 = true := by
    unfold is_heading_candidate
    norm_num [pyStrip]
    decide
  simp only [extract_outline, hcl, List.map_cons, List.map_nil, havg, hcom,
    List.filter_cons, List.filter_nil, hihc, if_true]
  decide


/-! ### Claim C8 -/

theorem foldl_text_all (spans : List Span) :
    ∀ init : List Char,
      (spans.foldl (fun acc sp => acc ++ sp.text) init).all isPyWhitespace = true →
      init.all isPyWhitespace = true ∧ ∀ sp ∈ spans, sp.text.all isPyWhitespace = true := by
  induction spans with
  | nil => intro init h; exact ⟨h, by intro sp hsp; simp at hsp⟩
  | cons sp rest ih =>
    intro init h
    rw [List.foldl_cons] at h
    obtain ⟨h1, h2⟩ := ih (init ++ sp.text) h
    rw [List.all_append, Bool.and_eq_true] at h1
    refine ⟨h1.1, ?_⟩
    intro sp2 hsp2
    rcases List.mem_cons.1 hsp2 with rfl | h3
    · exact h1.2
    · exact h2 sp2 h3

theorem titleScan_fst_empty :
    ∀ ss : List Span, (∀ sp ∈ ss, pyStrip sp.text = []) →
      ∀ acc : List Char × ℚ, acc.1 = [] →
        (ss.foldl (fun a sp => if sp.size > a.2 then (pyStrip sp.text, sp.size) else a) acc).1 = [] := by
  intro ss
  induction ss with
  | nil => intro _ acc h; exact h
  | cons sp rest ih =>
    intro hws acc h
    rw [List.foldl_cons]
    apply ih (fun sp2 h2 => hws sp2 (List.mem_cons_of_mem _ h2))
    by_cases hc : sp.size > acc.2
    · rw [if_pos hc]
      exact hws sp (List.mem_cons_self _ _)
    · rw [if_neg hc]
      exact h

/-- Claim C8: the empty corpus is a defined degenerate output.  With zero
collected lines and no metadata title, the font statistics fall back to
12, the title falls back to `Untitled Document`, and the outline is
empty. -/
theorem C8_empty_corpus (doc : Document) (order : List ℚ)
    (hempty : collectLines doc = []) (hmeta : doc.metadataTitle = none) :
    extract_outline doc order = (untitledText, []) ∧
    avg_font_size ((collectLines doc).map (fun i => i.font_size)) = 12 ∧
    common_font_size ((collectLines doc).map (fun i => i.font_size)) order = 12 := by
  have htitle : extract_title_from_document doc = untitledText := by
    have hfp : extract_title_from_document doc = firstPageTitle doc := by
      unfold extract_title_from_document
      rw [hmeta]
    rw [hfp]
    cases hpages : doc.pages with
    | nil => unfold firstPageTitle; rw [hpages]
    | cons p rest =>
      have hlp : linesOfPage 1 p = [] := by
        have hcp : collectPages 1 (doc.pages.take 50) = [] := hempty
        rw [hpages] at hcp
        have h50 : (p :: rest).take 50 = p :: rest.take 49 := rfl
        rw [h50, collectPages_cons] at hcp
        exact (List.append_eq_nil.1 hcp).1
      have hlines : ∀ line ∈ p, pyStrip (lineTextData line) = [] := by
        intro line hline
        have hfm := List.filterMap_eq_nil_iff.1 hlp line hline
        dsimp only at hfm
        rcases eq_or_ne (pyStrip (lineTextData line)) [] with h | h
        · exact h
        · exfalso
          rw [if_pos h] at hfm
          cases hfm
      have hspans : ∀ sp ∈ p.flatten, pyStrip sp.text = [] := by
        intro sp hsp
        obtain ⟨line, hline, hspl⟩ := List.mem_flatten.1 hsp
        have hall : (lineTextData line).all isPyWhitespace = true :=
          (pyStrip_eq_nil_iff _).1 (hlines line hline)
        have hres := foldl_text_all line [] hall
        exact (pyStrip_eq_nil_iff _).2 (hres.2 sp hspl)
      have hscan : (titleScan p.flatten).1 = [] := titleScan_fst_empty p.flatten hspans ([], 0) rfl
      unfold firstPageTitle
      rw [hpages]
      dsimp only
      rw [if_neg (fun hand => hand.1 hscan)]
  refine ⟨?_, ?_, ?_⟩
  · simp only [extract_outline, hempty, List.map_nil, List.filter_nil, htitle]
    rfl
  · rw [hempty]
    rfl
  · rw [hempty]
    rfl

/-- Witness for C8: a one-page document whose only span is whitespace
yields the degenerate output. -/
theorem C8_empty_corpus_witness :
    extract_outline ⟨none, [[[⟨String.data "   ", 9, 0⟩]]]⟩ [] = (untitledText, []) :=
  (C8_empty_corpus ⟨none, [[[⟨String.data "   ", 9, 0⟩]]]⟩ [] (by decide) rfl).1


/-! ### Claim C10 -/

/-- Claim C10: when every collected line reports font size 0, the average
and the common size are both 0, the size threshold
`max(0 * 1.1, 0 * 1.05)` is 0, and every line that passes the reject
filters is accepted by the size rule (0 >= 0). -/
theorem C10_zero_sizes (sizes order : List ℚ) (text : List Char) (ff : ℕ)
    (hne : sizes ≠ []) (hz : ∀ v ∈ sizes, v = 0) (hso : IsSetOrder sizes order) :
    avg_font_size sizes = 0 ∧
    common_font_size sizes order = 0 ∧
    max (avg_font_size sizes * 1.1) (common_font_size sizes order * 1.05) = 0 ∧
    (¬((pyStrip text).length < 3 ∨ (pyStrip text).length > 200) →
      onlyJunkChars (pyStrip text) = false →
      endsPunct (pyStrip text) = false →
      is_heading_candidate text 0 ff (avg_font_size sizes)
        (common_font_size sizes order) = true) := by
  obtain ⟨hnd, hmem⟩ := hso
  have hisEmpty : sizes.isEmpty = false := by
    cases sizes with
    | nil => exact absurd rfl hne
    | cons a t => rfl
  have havg : avg_font_size sizes = 0 := by
    unfold avg_font_size
    rw [if_neg (by simp [hisEmpty]), List.sum_eq_zero hz, zero_div]
  have hcom : common_font_size sizes order = 0 := by
    cases horder : order with
    | nil =>
      exfalso
      obtain ⟨s, hs⟩ := List.exists_mem_of_ne_nil sizes hne
      have hmo := (hmem s).2 hs
      rw [horder] at hmo
      simp at hmo
    | cons o os =>
      unfold common_font_size
      rw [if_neg (by simp [hisEmpty])]
      have hmemr : maxByCountAux sizes o os ∈ sizes := by
        rcases maxByCountAux_mem sizes os o with h | h
        · rw [h]
          exact (hmem o).1 (by rw [horder]; exact List.mem_cons_self o os)
        · exact (hmem _).1 (by rw [horder]; exact List.mem_cons_of_mem o h)
      exact hz _ hmemr
  have hmax : max (avg_font_size sizes * (1.1 : ℚ))
      (common_font_size sizes order * (1.05 : ℚ)) = 0 := by
    rw [havg, hcom]
    norm_num
  refine ⟨havg, hcom, hmax, ?_⟩
  intro h1 h2 h3
  unfold is_heading_candidate
  rw [if_neg h1, if_neg (by simp [h2]), if_neg (by simp [h3]), if_pos (le_of_eq hmax)]

/-- Witness for C10: two zero-size lines; the line `Background` at size 0
passes the reject filters and is accepted. -/
theorem C10_zero_sizes_witness :
    avg_font_size [0, 0] = 0 ∧
    common_font_size [0, 0] [0] = 0 ∧
    is_heading_candidate (String.data "Background") 0 0 (avg_font_size [0, 0])
      (common_font_size [0, 0] [0]) = true := by
  have hT := C10_zero_sizes [0, 0] [0] (String.data "Background") 0 (by decide)
    (by decide)
    ⟨by decide, fun v => by simp only [List.mem_cons, List.not_mem_nil, or_false]; tauto⟩
  exact ⟨hT.1, hT.2.1, hT.2.2.2 (by decide) (by decide) (by decide)⟩


/-! ### Claim C4 -/

/-- Running maximum of the span sizes with floor 0, the quantity tracked
by `largest_size` in the first-page scan. -/
def spanMax (ss : List Span) : ℚ := ss.foldl (fun m sp => max m sp.size) 0

/-- Stated from the spec of the first-page scan (as amended): the first
span attaining the strictly largest span size is selected, provided that
size is positive; its stripped text is the title candidate.  This is the
comparison point for the title claim, not code of the repository. -/
def titleScanSpec (ss : List Span) : List Char :=
  if 0 < spanMax ss then
    match ss.find? (fun sp => sp.size == spanMax ss) with
    | some sp => pyStrip sp.text
    | none => []
  else []

theorem foldl_max_init_le :
    ∀ (ss : List Span) (s : ℚ), s ≤ ss.foldl (fun m sp => max m sp.size) s := by
  intro ss
  induction ss with
  | nil => intro s; exact le_refl s
  | cons sp rest ih =>
    intro s
    rw [List.foldl_cons]
    exact le_trans (le_max_left s sp.size) (ih (max s sp.size))

theorem spanMax_nonneg (ss : List Span) : 0 ≤ spanMax ss := foldl_max_init_le ss 0

theorem foldl_max_mem_le :
    ∀ (ss : List Span) (s : ℚ) (sp : Span), sp ∈ ss →
      sp.size ≤ ss.foldl (fun m q => max m q.size) s := by
  intro ss
  induction ss with
  | nil => intro s sp h; simp at h
  | cons q rest ih =>
    intro s sp h
    rw [List.foldl_cons]
    rcases List.mem_cons.1 h with rfl | h2
    · exact le_trans (le_max_right s sp.size) (foldl_max_init_le rest (max s sp.size))
    · exact ih (max s q.size) sp h2

theorem spanMax_mem_le (ss : List Span) (sp : Span) (h : sp ∈ ss) : sp.size ≤ spanMax ss :=
  foldl_max_mem_le ss 0 sp h

theorem spanMax_append_single (ss : List Span) (sp : Span) :
    spanMax (ss ++ [sp]) = max (spanMax ss) sp.size := by
  unfold spanMax
  rw [List.foldl_append]
  rfl

theorem foldl_max_attained :
    ∀ (ss : List Span) (s : ℚ),
      ss.foldl (fun m q => max m q.size) s = s ∨
        ∃ sp ∈ ss, ss.foldl (fun m q => max m q.size) s = sp.size := by
  intro ss
  induction ss with
  | nil => intro s; left; rfl
  | cons q rest ih =>
    intro s
    rw [List.foldl_cons]
    rcases ih (max s q.size) with h | ⟨sp, hsp, hval⟩
    · rcases max_choice s q.size with hm | hm
      · left; rw [h, hm]
      · right; exact ⟨q, List.mem_cons_self q rest, by rw [h, hm]⟩
    · right; exact ⟨sp, List.mem_cons_of_mem q hsp, hval⟩

theorem spanMax_attained (ss : List Span) (h : 0 < spanMax ss) :
    ∃ sp ∈ ss, spanMax ss = sp.size := by
  rcases foldl_max_attained ss 0 with h0 | h0
  · exact absurd h0 (ne_of_gt h)
  · exact h0

theorem titleScan_snd :
    ∀ (ss : List Span) (t : List Char) (s : ℚ),
      (ss.foldl (fun a sp => if sp.size > a.2 then (pyStrip sp.text, sp.size) else a) (t, s)).2 =
        ss.foldl (fun m q => max m q.size) s := by
  intro ss
  induction ss with
  | nil => intro t s; rfl
  | cons sp rest ih =>
    intro t s
    simp only [List.foldl_cons]
    by_cases hc : sp.size > s
    · rw [if_pos hc, ih]
      rw [max_eq_right (le_of_lt hc)]
    · rw [if_neg hc, ih]
      rw [max_eq_left (not_lt.1 hc)]

theorem find?_append_none {p : Span → Bool} :
    ∀ l1 l2 : List Span, l1.find? p = none → (l1 ++ l2).find? p = l2.find? p := by
  intro l1
  induction l1 with
  | nil => intro l2 _; rfl
  | cons a t ih =>
    intro l2 h
    by_cases hp : p a = true
    · rw [List.find?_cons_of_pos _ hp] at h
      simp at h
    · rw [List.find?_cons_of_neg _ hp] at h
      rw [List.cons_append, List.find?_cons_of_neg _ hp]
      exact ih l2 h

theorem find?_append_some {p : Span → Bool} :
    ∀ (l1 l2 : List Span) (w : Span), l1.find? p = some w → (l1 ++ l2).find? p = some w := by
  intro l1
  induction l1 with
  | nil => intro l2 w h; simp at h
  | cons a t ih =>
    intro l2 w h
    by_cases hp : p a = true
    · rw [List.find?_cons_of_pos _ hp] at h
      rw [List.cons_append, List.find?_cons_of_pos _ hp]
      exact h
    · rw [List.find?_cons_of_neg _ hp] at h
      rw [List.cons_append, List.find?_cons_of_neg _ hp]
      exact ih l2 w h

theorem titleScan_fst : ∀ ss : List Span, (titleScan ss).1 = titleScanSpec ss := by
  intro ss
  induction ss using List.reverseRecOn with
  | nil => simp [titleScan, titleScanSpec, spanMax]
  | append_singleton ss sp ih =>
    have hstep : titleScan (ss ++ [sp]) =
        (if sp.size > (titleScan ss).2 then (pyStrip sp.text, sp.size) else titleScan ss) := by
      unfold titleScan
      rw [List.foldl_append]
      rfl
    have hsnd : (titleScan ss).2 = spanMax ss := titleScan_snd ss [] 0
    rw [hstep]
    by_cases hc : sp.size > (titleScan ss).2
    · rw [if_pos hc]
      rw [hsnd] at hc
      have hM : spanMax (ss ++ [sp]) = sp.size := by
        rw [spanMax_append_single]
        exact max_eq_right (le_of_lt hc)
      have hpos : 0 < spanMax (ss ++ [sp]) := by
        rw [hM]
        exact lt_of_le_of_lt (spanMax_nonneg ss) hc
      have hn : ss.find? (fun q => q.size == spanMax (ss ++ [sp])) = none := by
        rw [List.find?_eq_none]
        intro q hq hbe
        have hqe : q.size = spanMax (ss ++ [sp]) := by simpa using hbe
        rw [hM] at hqe
        exact absurd hqe (ne_of_lt (lt_of_le_of_lt (spanMax_mem_le ss q hq) hc))
      unfold titleScanSpec
      rw [if_pos hpos, find?_append_none ss [sp] hn]
      have hfind : List.find? (fun q => q.size == spanMax (ss ++ [sp])) [sp] = some sp := by
        simp [List.find?, hM]
      rw [hfind]
    · rw [if_neg hc]
      rw [hsnd] at hc
      have hle : sp.size ≤ spanMax ss := not_lt.1 hc
      have hM : spanMax (ss ++ [sp]) = spanMax ss := by
        rw [spanMax_append_single]
        exact max_eq_left hle
      rw [ih]
      unfold titleScanSpec
      rw [hM]
      by_cases hpos : 0 < spanMax ss
      · rw [if_pos hpos, if_pos hpos]
        obtain ⟨q, hq, hqs⟩ := spanMax_attained ss hpos
        have hex : ∃ w, ss.find? (fun q2 => q2.size == spanMax ss) = some w := by
          cases hf : ss.find? (fun q2 => q2.size == spanMax ss) with
          | some w => exact ⟨w, rfl⟩
          | none =>
            exfalso
            rw [List.find?_eq_none] at hf
            apply hf q hq
            simp only [beq_iff_eq]
            exact hqs.symm
        obtain ⟨w, hw⟩ := hex
        rw [hw, find?_append_some ss [sp] w hw]
      · rw [if_neg hpos, if_neg hpos]

theorem firstPageTitle_eq (doc : Document) (p : List (List Span))
    (rest : List (List (List Span))) (hp : doc.pages = p :: rest) :
    firstPageTitle doc =
      if 3 < (titleScanSpec p.flatten).length then titleScanSpec p.flatten
      else untitledText := by
  unfold firstPageTitle
  rw [hp]
  dsimp only
  rw [titleScan_fst p.flatten]
  by_cases hlen : 3 < (titleScanSpec p.flatten).length
  · rw [if_pos ⟨List.ne_nil_of_length_pos (by omega), by omega⟩, if_pos hlen]
  · rw [if_neg (fun hand => hlen hand.2), if_neg hlen]

/-- Claim C4 counterexample: the claim fails in two ways.  First, a
metadata title that is non-empty but blank after trimming (here three
spaces) is truthy for `if metadata.get('title')`, so the code returns the
empty string instead of falling through to the first-page scan or the
`Untitled Document` fallback.  Second, the scan only ever selects a span
whose size strictly exceeds the running maximum initialised to 0, so a
first page whose largest span has size 0 yields the fallback instead of
that span's text. -/
theorem C4_counterexample :
    extract_title_from_document ⟨some (String.data "   "), []⟩ = [] ∧
    ([] : List Char) ≠ untitledText ∧
    extract_title_from_document ⟨none, [[[⟨String.data "abcdef", 0, 0⟩]]]⟩ = untitledText ∧
    String.data "abcdef" ≠ untitledText :=
  ⟨by decide, by decide, by decide, by decide⟩

/-- Claim C4 (amended): if the metadata title is a non-empty string it is
returned trimmed — even when trimming leaves the empty string; only an
absent or empty metadata title falls through to the first-page scan.
The scan returns the stripped text of the first span carrying the
strictly largest span size provided that size is positive and the
stripped text is longer than 3 characters, and the literal
`Untitled Document` otherwise (in particular for documents without
pages). -/
theorem C4_title_resolution :
    (∀ (doc : Document) (t : List Char), doc.metadataTitle = some t → t ≠ [] →
      extract_title_from_document doc = pyStrip t) ∧
    (∀ doc : Document, doc.metadataTitle = none ∨ doc.metadataTitle = some [] →
      extract_title_from_document doc = firstPageTitle doc) ∧
    (∀ doc : Document, doc.pages = [] → firstPageTitle doc = untitledText) ∧
    (∀ (doc : Document) (p : List (List Span)) (rest : List (List (List Span))),
      doc.pages = p :: rest →
      firstPageTitle doc =
        if 3 < (titleScanSpec p.flatten).length then titleScanSpec p.flatten
        else untitledText) := by
  refine ⟨?_, ?_, ?_, firstPageTitle_eq⟩
  · intro doc t h1 h2
    unfold extract_title_from_document
    rw [h1]
    dsimp only
    rw [if_pos h2]
  · intro doc h
    rcases h with h | h
    · unfold extract_title_from_document
      rw [h]
    · unfold extract_title_from_document
      rw [h]
      dsimp only
      rw [if_neg (fun hne => hne rfl)]
  · intro doc h
    unfold firstPageTitle
    rw [h]

/-- Witness for the amended C4 theorem: a blank-padded metadata title is
returned trimmed, and a first page whose largest span reads
`My Doc Title` at size 14 resolves through the scan specification. -/
theorem C4_title_resolution_witness :
    extract_title_from_document ⟨some (String.data "  Hello  "), []⟩ =
      pyStrip (String.data "  Hello  ") ∧
    firstPageTitle ⟨none, [[[⟨String.data "My Doc Title", 14, 0⟩, ⟨String.data "x", 10, 0⟩]]]⟩ =
      (if 3 < (titleScanSpec ([[⟨String.data "My Doc Title", 14, 0⟩,
          ⟨String.data "x", 10, 0⟩]] : List (List Span)).flatten).length
       then titleScanSpec ([[⟨String.data "My Doc Title", 14, 0⟩,
          ⟨String.data "x", 10, 0⟩]] : List (List Span)).flatten
       else untitledText) :=
  ⟨C4_title_resolution.1 ⟨some (String.data "  Hello  "), []⟩ (String.data "  Hello  ")
      rfl (by decide),
   C4_title_resolution.2.2.2 ⟨none, [[[⟨String.data "My Doc Title", 14, 0⟩,
      ⟨String.data "x", 10, 0⟩]]]⟩ _ _ rfl⟩

end PDFOutline
